import Mathlib

/-!
# Verification of the sound-and-music-portfolio repository

Shallow embedding of the parts of the repository that the checked claims
concern, together with theorems settling each claim.

Two groups of code are embedded:

* The `SynthSynth` MIDI transmission demo (TypeScript, present in the
  sources): `MIDIEvent` (constructor, `toBytes`, `fromBytes`), the
  LSB-first bit serialization of `App.handleSendSignal`'s `sendByteBits`,
  and `Computer`'s `convertBitsToByte`.  TypeScript numbers are modelled
  as `Int` (integral inputs are the only ones the claims quantify over);
  JavaScript bitwise operators on small non-negative integers coincide
  with `Int`/`Nat` bitwise operators.

* The `Interpolator` sound-morphing engine.  Its Python sources are not
  part of the source tree (only its README is), so the engine is modelled
  from the specification text; every such definition carries a doc
  comment beginning `Modelled from the spec:`.  Signals are sequences of
  rationals (exact arithmetic stands in for floating point; "within a
  small per-sample tolerance" is then witnessed by exact equality where
  it holds).  The DFT/IDFT pair inside the frame transform is an exact
  bijection, so frames are represented by their windowed time-domain
  content wherever only the round trip matters, and by polar
  magnitude/phase data where the blending claims need it.
-/

/-- Decidable equality on `Except`, so that concrete runs of the
embedded fallible functions can be checked by `decide`. -/
instance {e a : Type} [DecidableEq e] [DecidableEq a] : DecidableEq (Except e a) := fun x y =>
  match x, y with
  | .error u, .error v =>
    if h : u = v then isTrue (congrArg Except.error h)
    else isFalse fun hc => h (Except.error.inj hc)
  | .error _, .ok _ => isFalse fun hc => Except.noConfusion hc
  | .ok _, .error _ => isFalse fun hc => Except.noConfusion hc
  | .ok u, .ok v =>
    if h : u = v then isTrue (congrArg Except.ok h)
    else isFalse fun hc => h (Except.ok.inj hc)

namespace SynthSynth

/-- The two supported MIDI message kinds (`MessageType` in
`MIDIEvent.ts`). -/
inductive MessageType where
  | Press
  | Release
deriving DecidableEq, Repr

/-- `MESSAGE_TYPES`: the status-byte base value of each message kind
(`Press ↦ 0x90`, `Release ↦ 0x80`). -/
def MESSAGE_TYPES : MessageType → Int
  | .Press => 0x90
  | .Release => 0x80

/-- The `MIDIEvent` record: channel, note and message type fields. -/
structure MIDIEvent where
  channel : Int
  note : Int
  messageType : MessageType
deriving DecidableEq, Repr

/-- The `MIDIEvent` constructor.  It throws (here: returns `.error`)
when the channel is outside 1–16 or the note outside 0–127, and
otherwise stores the three arguments unchanged. -/
def MIDIEvent.make (channel note : Int) (messageType : MessageType) :
    Except String MIDIEvent :=
  if channel < 1 ∨ channel > 16 then
    .error "MIDI channel must be between 1 and 16"
  else if note < 0 ∨ note > 127 then
    .error "MIDI note number must be between 0 and 127."
  else
    .ok ⟨channel, note, messageType⟩

/-- `MIDIEvent.toBytes`: status byte is the message-type base plus
`(channel - 1) & 0x0F`, followed by the note byte. -/
def MIDIEvent.toBytes (e : MIDIEvent) : List Int :=
  [MESSAGE_TYPES e.messageType + (Int.land (e.channel - 1) 0x0F), e.note]

/-- The status-byte lookup performed by `fromBytes`
(`Object.keys(MESSAGE_TYPES).find(...)`): the message kind whose base
value equals the masked status, if any. -/
def messageTypeOfStatus (v : Int) : Option MessageType :=
  if v = 0x90 then some .Press
  else if v = 0x80 then some .Release
  else none

/-- `MIDIEvent.fromBytes`: requires exactly two bytes, splits the status
byte into message type (upper nibble) and channel (lower nibble plus
one), and builds the event through the validating constructor. -/
def MIDIEvent.fromBytes (bytes : List Int) : Except String MIDIEvent :=
  if bytes.length ≠ 2 then
    .error "MIDI event must consist of exactly 3 bytes."
  else
    let status := bytes.getD 0 0
    let note := bytes.getD 1 0
    let messageType := Int.land status 0xF0
    let channel := Int.land status 0x0F + 1
    match messageTypeOfStatus messageType with
    | none => .error "Unsupported MIDI message type"
    | some mt => MIDIEvent.make channel note mt

/-- `App.handleSendSignal`'s `sendByteBits` bit extraction: the eight
bits of a byte, least-significant first (`(byte >> i) & 0x01`). -/
def sendByteBits (byte : Nat) : List Nat :=
  (List.range 8).map fun i => (byte >>> i) &&& 0x01

/-- `Computer.tsx`'s `convertBitsToByte`: requires exactly eight bits
and reassembles them with `byte |= (bits[i] & 0x01) << i`. -/
def convertBitsToByte (bits : List Nat) : Except String Nat :=
  if bits.length ≠ 8 then
    .error "Byte conversion requires 8 bites."
  else
    .ok ((List.range 8).foldl (fun byte i => byte ||| ((bits.getD i 0 &&& 0x01) <<< i)) 0)

end SynthSynth

namespace SynthSynth

theorem make_ok_of_valid (c n : Int) (t : MessageType)
    (hc1 : 1 ≤ c) (hc2 : c ≤ 16) (hn1 : 0 ≤ n) (hn2 : n ≤ 127) :
    MIDIEvent.make c n t = .ok ⟨c, n, t⟩ := by
  unfold MIDIEvent.make
  rw [if_neg, if_neg] <;> omega

theorem land_fifteen_self (c : Int) (hc1 : 1 ≤ c) (hc2 : c ≤ 16) :
    Int.land (c - 1) 0x0F = c - 1 := by
  interval_cases c <;> decide

theorem status_split (t : MessageType) (d : Int) (hd1 : 0 ≤ d) (hd2 : d ≤ 15) :
    Int.land (MESSAGE_TYPES t + d) 0xF0 = MESSAGE_TYPES t ∧
    Int.land (MESSAGE_TYPES t + d) 0x0F = d := by
  cases t <;> simp only [MESSAGE_TYPES] <;> interval_cases d <;> decide

/-- C9: the `MIDIEvent` constructor rejects exactly the inputs with
channel outside 1–16 or note outside 0–127, and otherwise stores the
channel, note and message type arguments unchanged. -/
theorem midi_constructor_spec (c n : Int) (t : MessageType) :
    ((∃ msg, MIDIEvent.make c n t = Except.error msg) ↔
      c < 1 ∨ c > 16 ∨ n < 0 ∨ n > 127) ∧
    ∀ e, MIDIEvent.make c n t = Except.ok e →
      e.channel = c ∧ e.note = n ∧ e.messageType = t := by
  unfold MIDIEvent.make
  split_ifs with h1 h2
  · refine ⟨⟨fun _ => by tauto, fun _ => ⟨_, rfl⟩⟩, fun e he => by cases he⟩
  · refine ⟨⟨fun _ => by tauto, fun _ => ⟨_, rfl⟩⟩, fun e he => by cases he⟩
  · constructor
    · constructor
      · rintro ⟨m, hm⟩
        cases hm
      · intro h
        tauto
    · intro e he
      cases he
      exact ⟨rfl, rfl, rfl⟩

/-- Witness for C9 at channel 5, note 64, `Press`. -/
theorem midi_constructor_spec_witness :
    MIDIEvent.make 5 64 .Press = Except.ok ⟨5, 64, .Press⟩ ∧
    (MIDIEvent.mk 5 64 .Press).channel = 5 ∧
    (MIDIEvent.mk 5 64 .Press).note = 64 ∧
    (MIDIEvent.mk 5 64 .Press).messageType = .Press :=
  ⟨by decide, (midi_constructor_spec 5 64 .Press).2 ⟨5, 64, .Press⟩ (by decide)⟩

/-- C8: encoding a valid `MIDIEvent` to bytes and decoding it back
succeeds and reproduces the channel, note and message type. -/
theorem midi_toBytes_fromBytes_roundtrip (c n : Int) (t : MessageType)
    (hc1 : 1 ≤ c) (hc2 : c ≤ 16) (hn1 : 0 ≤ n) (hn2 : n ≤ 127) :
    MIDIEvent.fromBytes (MIDIEvent.toBytes ⟨c, n, t⟩) = Except.ok ⟨c, n, t⟩ := by
  have h1 := land_fifteen_self c hc1 hc2
  have h2 := status_split t (c - 1) (by omega) (by omega)
  unfold MIDIEvent.toBytes MIDIEvent.fromBytes
  simp only [h1, List.length_cons, List.length_nil, List.getD_cons_zero, List.getD_cons_succ]
  rw [if_neg (by decide)]
  simp only [h2.1, h2.2]
  have h3 : messageTypeOfStatus (MESSAGE_TYPES t) = some t := by cases t <;> decide
  simp only [h3]
  have h4 : c - 1 + 1 = c := by omega
  rw [h4]
  exact make_ok_of_valid c n t hc1 hc2 hn1 hn2

/-- Witness for C8 at channel 5, note 64, `Press`. -/
theorem midi_toBytes_fromBytes_roundtrip_witness :
    (1 : Int) ≤ 5 ∧
    MIDIEvent.fromBytes (MIDIEvent.toBytes ⟨5, 64, .Press⟩) = Except.ok ⟨5, 64, .Press⟩ :=
  ⟨by decide,
    midi_toBytes_fromBytes_roundtrip 5 64 .Press (by decide) (by decide) (by decide) (by decide)⟩

set_option maxRecDepth 4000 in
/-- C10: serializing a byte LSB-first into eight bits as
`sendByteBits` does and reassembling them with `convertBitsToByte`
returns exactly the original byte. -/
theorem bits_byte_roundtrip (b : Nat) (hb : b < 256) :
    convertBitsToByte (sendByteBits b) = Except.ok b := by
  revert hb
  revert b
  decide

/-- Witness for C10 at byte 165 (= 0xA5). -/
theorem bits_byte_roundtrip_witness :
    165 < 256 ∧ convertBitsToByte (sendByteBits 165) = Except.ok 165 :=
  ⟨by decide, bits_byte_roundtrip 165 (by decide)⟩

end SynthSynth

namespace Interpolator

theorem map_range_getD {α : Type} (l : List α) (d : α) :
    (List.range l.length).map (fun i => l.getD i d) = l := by
  apply List.ext_getElem
  · simp
  · intro i h1 h2
    simp [List.getElem?_eq_getElem h2]

theorem getD_map_range {α : Type} (f : ℕ → α) (n i : ℕ) (h : i < n) (d : α) :
    ((List.range n).map f).getD i d = f i := by
  rw [List.getD_eq_getElem?_getD, List.getElem?_map, List.getElem?_range h]
  rfl

theorem getD_replicate {α : Type} (a d : α) (n i : ℕ) (h : i < n) :
    (List.replicate n a).getD i d = a := by
  rw [List.getD_eq_getElem?_getD, List.getElem?_replicate, if_pos h]
  rfl

/-- Modelled from the spec (§3): a `Signal` is an ordered sequence of
samples.  Exact rational arithmetic stands in for floating point, so
"within a small per-sample tolerance" is settled by exact equality where
it holds.  The sampling rate plays no role in any checked claim and is
omitted. -/
abbrev Signal := List ℚ

/-- The sample of a signal at an index, zero past the end (signals are
zero-padded at the edges, spec §4.1). -/
def sample (s : Signal) (n : ℕ) : ℚ := s.getD n 0

/-- Modelled from the spec (§4.1): the number of analysis frames placed
at hop-multiples over a signal of the given length — one frame per hop
plus a final zero-padded edge frame, so that every sample index lies
inside at least one frame. -/
def frameCount (sLen hop : ℕ) : ℕ := sLen / hop + 1

/-- Modelled from the spec (§4.1 `analyze`): the windowed STFT.  Frame
`m` holds the analysis window applied pointwise to the hop-shifted
signal slice starting at `m * hop`; slices past the end are zero-padded.
Each frame is represented by its windowed time-domain content: the
DFT/IDFT pair applied on either side of it is an exact bijection and
cancels in every checked property, so it is not materialized (the polar
magnitude/phase view needed by the blending claims is introduced
separately). -/
def analyze (win : ℕ → ℚ) (N hop : ℕ) (s : Signal) : List (List ℚ) :=
  (List.range (frameCount s.length hop)).map fun m =>
    (List.range N).map fun k => win k * sample s (m * hop + k)

/-- Modelled from the spec (§4.1 `synthesize`): the overlap-add
accumulator at output sample `n`, with the analysis window re-applied to
each frame before accumulation. -/
def olaNum (win : ℕ → ℚ) (N hop : ℕ) (frames : List (List ℚ)) (n : ℕ) : ℚ :=
  ((List.range frames.length).map fun m =>
    if m * hop ≤ n ∧ n < m * hop + N then
      win (n - m * hop) * (frames.getD m []).getD (n - m * hop) 0
    else 0).sum

/-- Modelled from the spec (§4.1): the accumulated window-sum-of-squares
at output sample `n` (the classic overlap-add normalization
denominator). -/
def winSqSum (win : ℕ → ℚ) (N hop numFrames : ℕ) (n : ℕ) : ℚ :=
  ((List.range numFrames).map fun m =>
    if m * hop ≤ n ∧ n < m * hop + N then win (n - m * hop) ^ 2 else 0).sum

/-- Modelled from the spec (§4.1 `synthesize`): re-window each frame,
overlap-add, divide per sample by the accumulated window-sum-of-squares,
and truncate/pad to the requested output length. -/
def synthesize (win : ℕ → ℚ) (N hop : ℕ) (frames : List (List ℚ)) (outLen : ℕ) : Signal :=
  (List.range outLen).map fun n =>
    olaNum win N hop frames n / winSqSum win N hop frames.length n

theorem analyze_length (win : ℕ → ℚ) (N hop : ℕ) (s : Signal) :
    (analyze win N hop s).length = frameCount s.length hop := by
  simp [analyze]

theorem olaNum_analyze (win : ℕ → ℚ) (N hop : ℕ) (s : Signal) (n : ℕ) :
    olaNum win N hop (analyze win N hop s) n =
      winSqSum win N hop (frameCount s.length hop) n * sample s n := by
  unfold olaNum winSqSum
  rw [analyze_length, ← List.sum_map_mul_right]
  congr 1
  apply List.map_congr_left
  intro m hm
  rw [List.mem_range] at hm
  by_cases hcov : m * hop ≤ n ∧ n < m * hop + N
  · rw [if_pos hcov, if_pos hcov]
    unfold analyze
    rw [getD_map_range _ _ _ hm, getD_map_range _ _ _ (by omega)]
    have : m * hop + (n - m * hop) = n := by omega
    rw [this]
    ring
  · rw [if_neg hcov, if_neg hcov, zero_mul]

/-- Shared helper: the exact analysis/synthesis round trip, valid
whenever the hop is positive and smaller than the window and the
accumulated window-sum-of-squares is nonzero at every sample of the
signal. -/
theorem synthesize_analyze (win : ℕ → ℚ) (N hop : ℕ) (s : Signal)
    (hhop : 0 < hop) (hN : hop < N)
    (hden : ∀ n < s.length, winSqSum win N hop (frameCount s.length hop) n ≠ 0) :
    synthesize win N hop (analyze win N hop s) s.length = s := by
  apply List.ext_getElem
  · simp [synthesize]
  · intro i h1 h2
    simp only [synthesize, List.getElem_map, List.getElem_range, analyze_length]
    rw [olaNum_analyze, mul_comm, mul_div_assoc, div_self (hden i h2), mul_one]
    exact List.getD_eq_getElem s 0 h2

/-- Helper for witnesses: with the all-ones (rectangular) window, the
accumulated window-sum-of-squares is positive at every covered sample. -/
theorem winSqSum_unitWin_pos (N hop F n : ℕ) (hhop : 0 < hop) (hN : hop ≤ N)
    (hcov : n / hop < F) : 0 < winSqSum (fun _ => 1) N hop F n := by
  unfold winSqSum
  have hmem : (1 : ℚ) ∈ (List.range F).map fun m =>
      if m * hop ≤ n ∧ n < m * hop + N then ((1 : ℚ)) ^ 2 else 0 := by
    rw [List.mem_map]
    refine ⟨n / hop, List.mem_range.mpr hcov, ?_⟩
    rw [if_pos ?_]
    · norm_num
    constructor
    · exact Nat.div_mul_le_self n hop
    · have h1 : n % hop < hop := Nat.mod_lt n hhop
      calc n = hop * (n / hop) + n % hop := (Nat.div_add_mod n hop).symm
      _ < hop * (n / hop) + N := Nat.add_lt_add_left (lt_of_lt_of_le h1 hN) _
      _ = n / hop * hop + N := by rw [Nat.mul_comm]
  have hnonneg : ∀ x ∈ (List.range F).map fun m =>
      if m * hop ≤ n ∧ n < m * hop + N then ((1 : ℚ)) ^ 2 else 0, 0 ≤ x := by
    intro x hx
    rw [List.mem_map] at hx
    obtain ⟨m, _, rfl⟩ := hx
    split <;> norm_num
  calc (0 : ℚ) < 1 := one_pos
  _ ≤ _ := List.single_le_sum hnonneg 1 hmem

/-- C1: for every signal and every valid window configuration
(`0 < hop < window_size`, with the overlap-add normalization denominator
nonzero at every sample), synthesizing the analysis frames with the same
window and hop and the signal's length reproduces the signal exactly —
in particular within any per-sample tolerance — when no modification is
applied in between. -/
theorem analyze_synthesize_roundtrip (win : ℕ → ℚ) (N hop : ℕ) (s : Signal)
    (hhop : 0 < hop) (hN : hop < N)
    (hden : ∀ n < s.length, winSqSum win N hop (frameCount s.length hop) n ≠ 0) :
    synthesize win N hop (analyze win N hop s) s.length = s :=
  synthesize_analyze win N hop s hhop hN hden

/-- Witness for C1: rectangular window, window size 4, hop 2, a concrete
five-sample signal. -/
theorem analyze_synthesize_roundtrip_witness :
    0 < 2 ∧ 2 < 4 ∧
    synthesize (fun _ => 1) 4 2 (analyze (fun _ => 1) 4 2 [3, 1, 4, 1, 5]) 5 = [3, 1, 4, 1, 5] := by
  refine ⟨by decide, by decide, ?_⟩
  have h := analyze_synthesize_roundtrip (fun _ => 1) 4 2 [3, 1, 4, 1, 5]
    (by decide) (by decide) ?_
  · exact h
  · intro n hn
    have hlen : ([3, 1, 4, 1, 5] : Signal).length = 5 := by decide
    rw [hlen] at hn
    exact ne_of_gt (winSqSum_unitWin_pos 4 2 (frameCount 5 2) n (by decide) (by decide)
      (by simp [frameCount]; omega))

/-- Modelled from the spec (§3 Segment): the fields involved in duration
accounting, in milliseconds.  A `transition_duration` of `0` encodes an
absent transition; the render pipeline ignores the last segment's value.
The vowel symbol and pitch offset play no role in any duration claim and
are omitted. -/
structure Segment where
  duration : ℚ
  transition_duration : ℚ
deriving DecidableEq, Repr

/-- Modelled from the spec (§4.5): the ordered span lengths the render
pipeline emits.  `incoming` is the duration of the transition
overlapping the current segment's head.  Each transition of duration `d`
overlaps the last `d` ms of its segment and the first `d` ms of the
next, and its blended audio is rendered once. -/
def renderSpans (incoming : ℚ) : List Segment → List ℚ
  | [] => []
  | [s] => [s.duration - incoming]
  | s :: s2 :: rest =>
      (s.duration - incoming - s.transition_duration) :: s.transition_duration ::
        renderSpans s.transition_duration (s2 :: rest)

/-- Modelled from the spec (§4.5): the total rendered output length of a
segment sequence. -/
def renderedLength (segs : List Segment) : ℚ := (renderSpans 0 segs).sum

theorem renderSpans_sum (incoming : ℚ) (segs : List Segment) (h : segs ≠ []) :
    (renderSpans incoming segs).sum =
      (segs.map Segment.duration).sum - incoming -
      ((segs.dropLast).map Segment.transition_duration).sum := by
  induction segs generalizing incoming with
  | nil => exact absurd rfl h
  | cons s rest ih =>
    cases rest with
    | nil => simp [renderSpans]
    | cons s2 rest2 =>
      rw [renderSpans]
      have hih := ih s.transition_duration (by simp)
      simp only [List.sum_cons, hih, List.dropLast, List.map_cons]
      ring

/-- C2: the total rendered length of a segment sequence is the sum of
the durations minus the sum of the transition durations of the
transitions performed (every segment but the last — the last segment's
value is ignored by design); in particular the documented two-segment
example 500 ms + 400 ms with a 250 ms transition renders 650 ms. -/
theorem rendered_length_accounting (segs : List Segment) :
    renderedLength segs =
      (segs.map Segment.duration).sum -
      ((segs.dropLast).map Segment.transition_duration).sum ∧
    renderedLength [⟨500, 250⟩, ⟨400, 0⟩] = 500 + 400 - 250 := by
  constructor
  · cases segs with
    | nil => simp [renderedLength, renderSpans]
    | cons s rest =>
      rw [renderedLength, renderSpans_sum 0 _ (by simp)]
      ring
  · norm_num [renderedLength, renderSpans]

/-- Modelled from the spec (§4.2): the documented audible f0 range,
20 Hz – 5 kHz. -/
def F0_MIN : ℚ := 20

/-- Modelled from the spec (§4.2): upper bound of the audible f0
range. -/
def F0_MAX : ℚ := 5000

/-- Modelled from the spec (§4.2): clamp an f0 value into the audible
range. -/
def clampF0 (x : ℚ) : ℚ := max F0_MIN (min x F0_MAX)

/-- Modelled from the spec (§3 Decomposition): per-frame f0 contour
(0 = unvoiced), spectral envelope and aperiodicity frames. -/
structure Decomposition where
  f0_contour : List ℚ
  spectral_envelope : List (List ℚ)
  aperiodicity : List (List ℚ)
deriving DecidableEq, Repr

/-- Modelled from the spec (§4.2): the non-fatal `PitchOutOfRange`
warning recorded when clamping occurs: the frame index and the unclamped
scaled value. -/
structure PitchOutOfRange where
  frame : ℕ
  value : ℚ
deriving DecidableEq, Repr

/-- Modelled from the spec (§4.2): one frame of `shift_pitch` — voiced
frames are scaled by the ratio and clamped into the audible range,
unvoiced frames (f0 = 0) are left untouched. -/
def shiftFrame (f0 r : ℚ) : ℚ :=
  if f0 = 0 then 0 else clampF0 (f0 * r)

/-- Modelled from the spec (§4.2 `shift_pitch`): multiply each voiced
frame's f0 by the corresponding ratio-contour value, leave unvoiced
frames untouched, clamp into the audible range, and record a
`PitchOutOfRange` warning for every frame whose scaled value fell
outside it.  Clamp-and-continue: the function always returns the shifted
decomposition together with the warning list. -/
def shift_pitch (d : Decomposition) (ratio : List ℚ) :
    Decomposition × List PitchOutOfRange :=
  (⟨(List.range d.f0_contour.length).map fun i =>
      shiftFrame (d.f0_contour.getD i 0) (ratio.getD i 1),
    d.spectral_envelope, d.aperiodicity⟩,
   (List.range d.f0_contour.length).filterMap fun i =>
     let f0 := d.f0_contour.getD i 0
     let v := f0 * ratio.getD i 1
     if f0 ≠ 0 ∧ (v < F0_MIN ∨ F0_MAX < v) then some ⟨i, v⟩ else none)

theorem clampF0_of_in_range (x : ℚ) (h1 : F0_MIN ≤ x) (h2 : x ≤ F0_MAX) :
    clampF0 x = x := by
  unfold clampF0
  rw [min_eq_left h2, max_eq_right h1]

/-- C3: shifting a decomposition by a constant ratio contour `r > 0`
whose scaled values stay inside the documented audible range scales
every voiced frame's f0 by exactly `r` and leaves every unvoiced frame
(f0 = 0) exactly 0. -/
theorem shift_pitch_constant_ratio (d : Decomposition) (r : ℚ)
    (hr : 0 < r)
    (hin : ∀ i < d.f0_contour.length, d.f0_contour.getD i 0 ≠ 0 →
      F0_MIN ≤ d.f0_contour.getD i 0 * r ∧ d.f0_contour.getD i 0 * r ≤ F0_MAX) :
    ∀ i < d.f0_contour.length,
      (d.f0_contour.getD i 0 ≠ 0 →
        (shift_pitch d (List.replicate d.f0_contour.length r)).1.f0_contour.getD i 0 =
          d.f0_contour.getD i 0 * r) ∧
      (d.f0_contour.getD i 0 = 0 →
        (shift_pitch d (List.replicate d.f0_contour.length r)).1.f0_contour.getD i 0 = 0) := by
  intro i hi
  unfold shift_pitch
  simp only
  rw [getD_map_range _ _ _ hi]
  rw [getD_replicate r 1 d.f0_contour.length i hi]
  unfold shiftFrame
  constructor
  · intro hv
    rw [if_neg hv]
    exact clampF0_of_in_range _ (hin i hi hv).1 (hin i hi hv).2
  · intro hv
    rw [if_pos hv]

/-- A concrete decomposition for witnesses: two voiced frames and one
unvoiced frame. -/
def demoDecomp : Decomposition := ⟨[100, 0, 440], [], []⟩

/-- Witness for C3: the three-frame demo contour scaled by ratio 2. -/
theorem shift_pitch_constant_ratio_witness :
    (0 : ℚ) < 2 ∧
    (demoDecomp.f0_contour.getD 0 0 ≠ 0 →
      (shift_pitch demoDecomp (List.replicate demoDecomp.f0_contour.length 2)).1.f0_contour.getD 0 0 =
        demoDecomp.f0_contour.getD 0 0 * 2) ∧
    (demoDecomp.f0_contour.getD 0 0 = 0 →
      (shift_pitch demoDecomp (List.replicate demoDecomp.f0_contour.length 2)).1.f0_contour.getD 0 0 = 0) := by
  have h := shift_pitch_constant_ratio demoDecomp 2 (by norm_num) ?hin 0 ?h0
  case h0 => simp [demoDecomp]
  case hin =>
    intro i hi hv
    have hi3 : i < 3 := by simpa [demoDecomp] using hi
    interval_cases i
    · norm_num [demoDecomp, F0_MIN, F0_MAX, List.getD_cons_zero, List.getD_cons_succ]
    · exact absurd (by norm_num [demoDecomp, List.getD_cons_zero, List.getD_cons_succ]) hv
    · norm_num [demoDecomp, F0_MIN, F0_MAX, List.getD_cons_zero, List.getD_cons_succ]
  exact ⟨by norm_num, h.1, h.2⟩

/-- C4: when some voiced frame's scaled f0 falls outside the audible
range, `shift_pitch` clamps that frame into the range, records a
`PitchOutOfRange` warning carrying that frame index, and still returns a
decomposition with the same frame count and unchanged envelope and
aperiodicity (clamp-and-continue — the render is not aborted). -/
theorem shift_pitch_clamps_and_warns (d : Decomposition) (ratio : List ℚ) (i : ℕ)
    (hi : i < d.f0_contour.length)
    (hv : d.f0_contour.getD i 0 ≠ 0)
    (hout : d.f0_contour.getD i 0 * ratio.getD i 1 < F0_MIN ∨
      F0_MAX < d.f0_contour.getD i 0 * ratio.getD i 1) :
    (shift_pitch d ratio).1.f0_contour.getD i 0 =
      clampF0 (d.f0_contour.getD i 0 * ratio.getD i 1) ∧
    F0_MIN ≤ (shift_pitch d ratio).1.f0_contour.getD i 0 ∧
    (shift_pitch d ratio).1.f0_contour.getD i 0 ≤ F0_MAX ∧
    (⟨i, d.f0_contour.getD i 0 * ratio.getD i 1⟩ : PitchOutOfRange) ∈ (shift_pitch d ratio).2 ∧
    (shift_pitch d ratio).1.f0_contour.length = d.f0_contour.length ∧
    (shift_pitch d ratio).1.spectral_envelope = d.spectral_envelope ∧
    (shift_pitch d ratio).1.aperiodicity = d.aperiodicity := by
  have hval : (shift_pitch d ratio).1.f0_contour.getD i 0 =
      clampF0 (d.f0_contour.getD i 0 * ratio.getD i 1) := by
    unfold shift_pitch
    simp only
    rw [getD_map_range _ _ _ hi]
    unfold shiftFrame
    rw [if_neg hv]
  have hminmax : F0_MIN ≤ F0_MAX := by norm_num [F0_MIN, F0_MAX]
  refine ⟨hval, ?_, ?_, ?_, ?_, ?_, ?_⟩
  · rw [hval]; exact le_max_left _ _
  · rw [hval]
    unfold clampF0
    exact max_le hminmax (min_le_right _ _)
  · unfold shift_pitch
    simp only
    rw [List.mem_filterMap]
    refine ⟨i, List.mem_range.mpr hi, ?_⟩
    rw [if_pos ⟨hv, hout⟩]
  · unfold shift_pitch
    simp
  · rfl
  · rfl

/-- A one-voiced-frame decomposition for the clamping witness. -/
def demoDecompLoud : Decomposition := ⟨[100], [], []⟩

/-- Witness for C4: the single voiced frame at 100 Hz, scaled by 100,
exceeds the 5 kHz bound, is clamped, and a warning is recorded. -/
theorem shift_pitch_clamps_and_warns_witness :
    demoDecompLoud.f0_contour.getD 0 0 ≠ 0 ∧
    (shift_pitch demoDecompLoud [100]).1.f0_contour.getD 0 0 =
      clampF0 (demoDecompLoud.f0_contour.getD 0 0 * ([(100 : ℚ)].getD 0 1)) ∧
    (⟨0, demoDecompLoud.f0_contour.getD 0 0 * ([(100 : ℚ)].getD 0 1)⟩ :
      PitchOutOfRange) ∈ (shift_pitch demoDecompLoud [100]).2 := by
  have h := shift_pitch_clamps_and_warns demoDecompLoud [100] 0 (by simp [demoDecompLoud])
    (by norm_num [demoDecompLoud, List.getD_cons_zero])
    (by norm_num [demoDecompLoud, List.getD_cons_zero, F0_MIN, F0_MAX])
  exact ⟨by norm_num [demoDecompLoud, List.getD_cons_zero], h.1, h.2.2.2.1⟩

/-- Modelled from the spec (§3 SpectralFrame): the polar representation
of one STFT column — per-bin magnitude and phase. -/
structure SpectralFrame where
  magnitude : List ℚ
  phase : List ℚ
deriving DecidableEq, Repr

instance : Inhabited SpectralFrame := ⟨⟨[], []⟩⟩

/-- Modelled from the spec (§4.4 step 3): the per-bin blend of two
aligned spectral frames with weight `w` — direct linear blend of both
magnitude and phase (not circular averaging). -/
def blendFrame (w : ℚ) (a b : SpectralFrame) : SpectralFrame :=
  ⟨List.zipWith (fun x y => (1 - w) * x + w * y) a.magnitude b.magnitude,
   List.zipWith (fun x y => (1 - w) * x + w * y) a.phase b.phase⟩

/-- Modelled from the spec (§3 Weight Curve): the normalized transition
progress of frame `i` among `n` frames. -/
def progress (i n : ℕ) : ℚ := if n ≤ 1 then 0 else (i : ℚ) / ((n : ℚ) - 1)

/-- Modelled from the spec (§4.4 steps 2–3): blend two frame-aligned
sequences per aligned frame index, the weight taken from the weight
curve at that frame's progress. -/
def blendFrames (curve : ℚ → ℚ) (fa fb : List SpectralFrame) : List SpectralFrame :=
  (List.range (min fa.length fb.length)).map fun i =>
    blendFrame (curve (progress i (min fa.length fb.length)))
      (fa.getD i default) (fb.getD i default)

theorem getD_zipWith (f : ℚ → ℚ → ℚ) (l1 l2 : List ℚ) (k : ℕ)
    (h1 : k < l1.length) (h2 : k < l2.length) :
    (List.zipWith f l1 l2).getD k 0 = f (l1.getD k 0) (l2.getD k 0) := by
  have hk : k < (List.zipWith f l1 l2).length := by
    rw [List.length_zipWith]; omega
  rw [List.getD_eq_getElem _ _ hk, List.getElem_zipWith,
      List.getD_eq_getElem _ _ h1, List.getD_eq_getElem _ _ h2]

/-- C5: for frame-aligned spectral-frame sequences, the transition blend
satisfies, per aligned frame `i` and bin `k`,
`magnitude_out = (1-w)*mag_A + w*mag_B` and
`phase_out = (1-w)*phase_A + w*phase_B`, with `w` the weight curve at
that frame's progress. -/
theorem blend_per_bin (curve : ℚ → ℚ) (fa fb : List SpectralFrame) (i k : ℕ)
    (hlen : fa.length = fb.length) (hi : i < fa.length)
    (hma : k < (fa.getD i default).magnitude.length)
    (hmb : k < (fb.getD i default).magnitude.length)
    (hpa : k < (fa.getD i default).phase.length)
    (hpb : k < (fb.getD i default).phase.length) :
    ((blendFrames curve fa fb).getD i default).magnitude.getD k 0 =
      (1 - curve (progress i fa.length)) * (fa.getD i default).magnitude.getD k 0 +
        curve (progress i fa.length) * (fb.getD i default).magnitude.getD k 0 ∧
    ((blendFrames curve fa fb).getD i default).phase.getD k 0 =
      (1 - curve (progress i fa.length)) * (fa.getD i default).phase.getD k 0 +
        curve (progress i fa.length) * (fb.getD i default).phase.getD k 0 := by
  have hmin : min fa.length fb.length = fa.length := by omega
  unfold blendFrames
  rw [hmin, getD_map_range _ _ _ hi]
  unfold blendFrame
  constructor
  · exact getD_zipWith _ _ _ _ hma hmb
  · exact getD_zipWith _ _ _ _ hpa hpb

/-- Two concrete aligned spectral-frame sequences for the C5 witness. -/
def demoFramesA : List SpectralFrame := [⟨[1, 2], [0, 1]⟩, ⟨[3, 4], [1, 0]⟩]

/-- Second sequence for the C5 witness. -/
def demoFramesB : List SpectralFrame := [⟨[5, 6], [2, 3]⟩, ⟨[7, 8], [3, 2]⟩]

/-- Witness for C5: frame 1, bin 0 of the two demo sequences under the
identity weight curve. -/
theorem blend_per_bin_witness :
    demoFramesA.length = demoFramesB.length ∧
    ((blendFrames (fun t => t) demoFramesA demoFramesB).getD 1 default).magnitude.getD 0 0 =
      (1 - (fun t => t) (progress 1 demoFramesA.length)) *
          (demoFramesA.getD 1 default).magnitude.getD 0 0 +
        (fun t => t) (progress 1 demoFramesA.length) *
          (demoFramesB.getD 1 default).magnitude.getD 0 0 ∧
    ((blendFrames (fun t => t) demoFramesA demoFramesB).getD 1 default).phase.getD 0 0 =
      (1 - (fun t => t) (progress 1 demoFramesA.length)) *
          (demoFramesA.getD 1 default).phase.getD 0 0 +
        (fun t => t) (progress 1 demoFramesA.length) *
          (demoFramesB.getD 1 default).phase.getD 0 0 := by
  have h := blend_per_bin (fun t => t) demoFramesA demoFramesB 1 0
    (by simp [demoFramesA, demoFramesB]) (by simp [demoFramesA])
    (by simp [demoFramesA, List.getD_cons_succ, List.getD_cons_zero])
    (by simp [demoFramesB, List.getD_cons_succ, List.getD_cons_zero])
    (by simp [demoFramesA, List.getD_cons_succ, List.getD_cons_zero])
    (by simp [demoFramesB, List.getD_cons_succ, List.getD_cons_zero])
  exact ⟨by simp [demoFramesA, demoFramesB], h.1, h.2⟩

/-- Modelled from the spec (§4.4 step 4): linear interpolation of
aligned formant frequencies with weight `w`. -/
def interpFormants (w : ℚ) (fa fb : List ℚ) : List ℚ :=
  List.zipWith (fun x y => (1 - w) * x + w * y) fa fb

/-- Modelled from the spec (§4.4 step 5): the reshape gain at bin `k`
toward the given formant frequencies — one multiplicative bump factor
per formant, centered at that formant.  The bump profile (a Gaussian of
tunable bandwidth in the spec, hence transcendental) is a parameter;
"boosting energy near target formants" means the profile exceeds 1 near
0. -/
def formantGain (bump : ℚ → ℚ) (formants : List ℚ) (k : ℕ) : ℚ :=
  (formants.map fun f => bump ((k : ℚ) - f)).prod

/-- Modelled from the spec (§4.4 step 5): multiply each magnitude bin by
the reshape gain; the phase is unchanged. -/
def reshapeFrame (gain : ℕ → ℚ) (fr : SpectralFrame) : SpectralFrame :=
  ⟨(List.range fr.magnitude.length).map fun k => gain k * fr.magnitude.getD k 0,
   fr.phase⟩

/-- Modelled from the spec (§4.4 steps 2–6): the transition blend of two
signals — analyze both with identical window/hop settings, convert each
frame's spectrum to polar magnitude/phase form, blend magnitude and
phase per aligned frame with the weight curve, interpolate the two
formant tracks with the same weight and reshape each blended frame's
magnitudes with the bump gain at the interpolated formants, convert back
and resynthesize.  `toPolar`/`fromPolar` are the polar conversion
applied to each frame (a transcendental bijection of frame contents;
mutual inverseness is the only property the claims use, so the pair is a
parameter).  The pitch-shift stage (step 1) has a unit ratio contour
whenever the two sides' pitches agree — in particular when both inputs
are the same signal — and is omitted. -/
def transitionBlend (win : ℕ → ℚ) (N hop : ℕ)
    (toPolar : List ℚ → SpectralFrame) (fromPolar : SpectralFrame → List ℚ)
    (curve : ℚ → ℚ) (bump : ℚ → ℚ) (trackA trackB : List (List ℚ))
    (a b : Signal) (outLen : ℕ) : Signal :=
  let fa := (analyze win N hop a).map toPolar
  let fb := (analyze win N hop b).map toPolar
  let n := min fa.length fb.length
  let blended := blendFrames curve fa fb
  let reshaped := (List.range n).map fun i =>
    reshapeFrame
      (formantGain bump
        (interpFormants (curve (progress i n)) (trackA.getD i []) (trackB.getD i [])))
      (blended.getD i default)
  synthesize win N hop (reshaped.map fromPolar) outLen

/-- Modelled from the spec (§4.4 failure policy, §4.5): render one
adjacent pair of steady segment renders with a transition of `d`
samples: if `d = 0` the transition degenerates to a hard cut — plain
concatenation, no blending stage — otherwise the overlapping tail of A
and head of B are replaced by their blended transition audio. -/
def renderPair (win : ℕ → ℚ) (N hop : ℕ)
    (toPolar : List ℚ → SpectralFrame) (fromPolar : SpectralFrame → List ℚ)
    (curve : ℚ → ℚ) (bump : ℚ → ℚ) (trackA trackB : List (List ℚ))
    (steadyA steadyB : Signal) (d : ℕ) : Signal :=
  if d = 0 then steadyA ++ steadyB
  else
    steadyA.take (steadyA.length - d) ++
    transitionBlend win N hop toPolar fromPolar curve bump trackA trackB
      (steadyA.drop (steadyA.length - d)) (steadyB.take d) d ++
    steadyB.drop d

/-- C6: with transition duration 0, the rendered output of an adjacent
pair is exactly the concatenation of the two steady renders — no
blending stage contributes. -/
theorem renderPair_zero_transition (win : ℕ → ℚ) (N hop : ℕ)
    (toPolar : List ℚ → SpectralFrame) (fromPolar : SpectralFrame → List ℚ)
    (curve : ℚ → ℚ) (bump : ℚ → ℚ) (trackA trackB : List (List ℚ))
    (steadyA steadyB : Signal) :
    renderPair win N hop toPolar fromPolar curve bump trackA trackB steadyA steadyB 0 =
      steadyA ++ steadyB := by
  simp [renderPair]

theorem blendFrame_self (w : ℚ) (f : SpectralFrame) : blendFrame w f f = f := by
  have h : ∀ l : List ℚ, List.zipWith (fun x y => (1 - w) * x + w * y) l l = l := by
    intro l
    rw [List.zipWith_same]
    conv_rhs => rw [← List.map_id l]
    exact List.map_congr_left fun a _ => by rw [id_eq]; ring
  cases f with
  | mk m p =>
    simp only [blendFrame]
    rw [h m, h p]

theorem blendFrames_self (curve : ℚ → ℚ) (fa : List SpectralFrame) :
    blendFrames curve fa fa = fa := by
  unfold blendFrames
  rw [min_self]
  calc (List.range fa.length).map
        (fun i => blendFrame (curve (progress i fa.length)) (fa.getD i default) (fa.getD i default))
      = (List.range fa.length).map fun i => fa.getD i default :=
        List.map_congr_left fun i _ => blendFrame_self _ _
    _ = fa := map_range_getD fa default

theorem formantGain_trivial (bump : ℚ → ℚ) (hb : ∀ q, bump q = 1)
    (F : List ℚ) (k : ℕ) : formantGain bump F k = 1 := by
  unfold formantGain
  have h : F.map (fun f => bump ((k : ℚ) - f)) = F.map fun _ => 1 :=
    List.map_congr_left fun f _ => hb _
  rw [h]
  simp

theorem reshapeFrame_trivial (g : ℕ → ℚ) (hg : ∀ k, g k = 1) (f : SpectralFrame) :
    reshapeFrame g f = f := by
  cases f with
  | mk m p =>
    simp only [reshapeFrame]
    congr 1
    calc (List.range m.length).map (fun k => g k * m.getD k 0)
        = (List.range m.length).map fun k => m.getD k 0 :=
          List.map_congr_left fun k _ => by rw [hg k, one_mul]
      _ = m := map_range_getD m 0

/-- Shared helper: the transition blend of a signal against itself is
the identity whenever the reshape bump profile is trivially 1 —
magnitude and phase blend of equal frames is the identity, and the
resynthesis is the exact overlap-add round trip. -/
theorem reshape_map_trivial (bump : ℚ → ℚ) (hb : ∀ q, bump q = 1) (curve : ℚ → ℚ)
    (trackA trackB : List (List ℚ)) (L : List SpectralFrame) :
    (List.range L.length).map (fun i => reshapeFrame
      (formantGain bump
        (interpFormants (curve (progress i L.length)) (trackA.getD i []) (trackB.getD i [])))
      (L.getD i default)) = L := by
  have h1 : (List.range L.length).map (fun i => reshapeFrame
      (formantGain bump
        (interpFormants (curve (progress i L.length)) (trackA.getD i []) (trackB.getD i [])))
      (L.getD i default)) =
      (List.range L.length).map fun i => L.getD i default :=
    List.map_congr_left fun i _ =>
      reshapeFrame_trivial _ (fun k => formantGain_trivial bump hb _ k) _
  rw [h1]
  exact map_range_getD L default

theorem transitionBlend_self_trivial_bump (win : ℕ → ℚ) (N hop : ℕ)
    (toPolar : List ℚ → SpectralFrame) (fromPolar : SpectralFrame → List ℚ)
    (curve : ℚ → ℚ) (bump : ℚ → ℚ) (trackA trackB : List (List ℚ)) (s : Signal)
    (hinv : ∀ l, fromPolar (toPolar l) = l)
    (hb : ∀ q, bump q = 1)
    (hhop : 0 < hop) (hN : hop < N)
    (hden : ∀ n < s.length, winSqSum win N hop (frameCount s.length hop) n ≠ 0) :
    transitionBlend win N hop toPolar fromPolar curve bump trackA trackB s s s.length = s := by
  unfold transitionBlend
  simp only
  rw [min_self, blendFrames_self curve ((analyze win N hop s).map toPolar)]
  rw [reshape_map_trivial bump hb curve trackA trackB ((analyze win N hop s).map toPolar)]
  rw [List.map_map]
  have hcomp : (analyze win N hop s).map (fromPolar ∘ toPolar) = analyze win N hop s := by
    have h2 : (analyze win N hop s).map (fromPolar ∘ toPolar) =
        (analyze win N hop s).map id :=
      List.map_congr_left fun l _ => by simp [Function.comp, hinv l]
    rw [h2, List.map_id]
  rw [hcomp]
  exact synthesize_analyze win N hop s hhop hN hden

/-- A concrete polar conversion for witnesses and counterexamples:
magnitudes are the frame contents, phases zero.  Inverse to
`demoFromPolar` on every frame. -/
def demoToPolar (l : List ℚ) : SpectralFrame := ⟨l, l.map fun _ => 0⟩

/-- Concrete inverse of `demoToPolar`. -/
def demoFromPolar (f : SpectralFrame) : List ℚ := f.magnitude

/-- A concrete boosting bump profile: factor 2 at the formant center,
1 elsewhere (a rational stand-in for a Gaussian boost of amplitude 2 and
narrow bandwidth). -/
def demoBump (q : ℚ) : ℚ := if q = 0 then 2 else 1

/-- Counterexample to C7 as stated: the transition blend of the signal
`[1]` against itself — magnitude, phase and formant interpolation with
both inputs and both formant tracks equal, boosting bump profile — yields
`[2]`, not `[1]`: the formant-reshape stage applies its boost regardless
of the inputs being identical, so the deviation (here 100% of the
sample, scaling with the input amplitude) is not bounded by any small
tolerance. -/
theorem selfBlend_counterexample :
    transitionBlend (fun _ => 1) 2 1 demoToPolar demoFromPolar (fun t => t) demoBump
      [[0], [0]] [[0], [0]] [1] [1] 1 = [2] ∧
    ([2] : Signal) ≠ [1] := by
  have hr1 : List.range 1 = [0] := by decide
  have hr2 : List.range 2 = [0, 1] := by decide
  have hfc : frameCount 1 1 = 2 := by decide
  have h1 : analyze (fun _ => 1) 2 1 [1] = [[1, 0], [0, 0]] := by
    simp only [analyze, List.length_cons, List.length_nil, Nat.zero_add, hfc, hr2,
      List.map_cons, List.map_nil, sample]
    norm_num [List.getD_cons_zero, List.getD_cons_succ]
  have e1 : (analyze (fun _ => 1) 2 1 [1]).map demoToPolar =
      [⟨[1, 0], [0, 0]⟩, ⟨[0, 0], [0, 0]⟩] := by
    rw [h1]
    simp [demoToPolar]
  have h3 := blendFrames_self (fun t => t)
    ([⟨[1, 0], [0, 0]⟩, ⟨[0, 0], [0, 0]⟩] : List SpectralFrame)
  have hlen : ([⟨[1, 0], [0, 0]⟩, ⟨[0, 0], [0, 0]⟩] : List SpectralFrame).length = 2 := rfl
  have h4 : (List.range 2).map (fun i => reshapeFrame
      (formantGain demoBump
        (interpFormants (progress i 2)
          (([[0], [0]] : List (List ℚ)).getD i []) (([[0], [0]] : List (List ℚ)).getD i [])))
      (([⟨[1, 0], [0, 0]⟩, ⟨[0, 0], [0, 0]⟩] : List SpectralFrame).getD i default)) =
      [⟨[2, 0], [0, 0]⟩, ⟨[0, 0], [0, 0]⟩] := by
    rw [hr2]
    simp only [List.map_cons, List.map_nil]
    norm_num [reshapeFrame, formantGain, interpFormants, progress, demoBump, hr2,
      List.getD_cons_zero, List.getD_cons_succ]
  have h5 : List.map demoFromPolar
      ([⟨[2, 0], [0, 0]⟩, ⟨[0, 0], [0, 0]⟩] : List SpectralFrame) = [[2, 0], [0, 0]] := by
    simp [demoFromPolar]
  have h6 : synthesize (fun _ => 1) 2 1 ([[2, 0], [0, 0]] : List (List ℚ)) 1 = [2] := by
    simp only [synthesize, olaNum, winSqSum, List.length_cons, List.length_nil,
      Nat.zero_add, hr1, hr2, List.map_cons, List.map_nil]
    norm_num [List.getD_cons_zero, List.getD_cons_succ]
  refine ⟨?_, by simp⟩
  unfold transitionBlend
  simp only [e1, hlen, min_self, h3, h4, h5]
  exact h6

/-- Amended C7: the transition blend of a signal `s` against itself
(valid window configuration, polar conversion mutually inverse,
normalization denominator nonzero at each sample) reproduces `s` exactly
provided the formant-reshape bump profile is trivial (gain 1
everywhere); the magnitude and phase interpolation stages alone are the
identity on equal inputs for every weight curve. -/
theorem selfBlend_identity (win : ℕ → ℚ) (N hop : ℕ)
    (toPolar : List ℚ → SpectralFrame) (fromPolar : SpectralFrame → List ℚ)
    (curve : ℚ → ℚ) (bump : ℚ → ℚ) (trackA trackB : List (List ℚ)) (s : Signal)
    (hinv : ∀ l, fromPolar (toPolar l) = l)
    (hb : ∀ q, bump q = 1)
    (hhop : 0 < hop) (hN : hop < N)
    (hden : ∀ n < s.length, winSqSum win N hop (frameCount s.length hop) n ≠ 0) :
    transitionBlend win N hop toPolar fromPolar curve bump trackA trackB s s s.length = s :=
  transitionBlend_self_trivial_bump win N hop toPolar fromPolar curve bump trackA trackB s
    hinv hb hhop hN hden

/-- Witness for the amended C7: rectangular window, window size 4,
hop 2, the five-sample demo signal, identity weight curve, trivial
bump. -/
theorem selfBlend_identity_witness :
    (∀ l, demoFromPolar (demoToPolar l) = l) ∧
    transitionBlend (fun _ => 1) 4 2 demoToPolar demoFromPolar (fun t => t) (fun _ => 1)
      [] [] [3, 1, 4, 1, 5] [3, 1, 4, 1, 5] 5 = [3, 1, 4, 1, 5] := by
  refine ⟨fun l => rfl, ?_⟩
  have h := selfBlend_identity (fun _ => 1) 4 2 demoToPolar demoFromPolar (fun t => t)
    (fun _ => 1) [] [] [3, 1, 4, 1, 5] (fun l => rfl) (fun q => rfl) (by decide) (by decide) ?_
  · exact h
  · intro n hn
    have hlen : ([3, 1, 4, 1, 5] : Signal).length = 5 := by decide
    rw [hlen] at hn
    exact ne_of_gt (winSqSum_unitWin_pos 4 2 (frameCount 5 2) n (by decide) (by decide)
      (by simp [frameCount]; omega))

end Interpolator
